import Mathlib

/-!
Verification of the kanji drill-sheet pipeline of `src/src/App.tsx`:
character extraction (`extractKanjiByLines`), ordering (`sortKanji`),
row-budget computation (`maxKanjiPerRow`) and layout (`createDrillLayout`).

Characters are modelled as UTF-16 code units (`Nat`); a text is the list of
its code units; the newline character is code unit 10.  The stable JavaScript
`Array.prototype.sort` is modelled by `List.insertionSort`, which is stable
for a total preorder comparator.
-/

namespace KanjiKakijun

/-- The character class of the regex `/[一-龯㐀-䶿]/`
used by `extractKanjiByLines`. -/
def isKanji (c : Nat) : Bool :=
  (0x4e00 ≤ c && c ≤ 0x9faf) || (0x3400 ≤ c && c ≤ 0x4dbf)

/-- Model of `text.split` at the newline character: split a list of code
units at every occurrence of code unit 10.  On the empty text this yields
`[[]]`, matching the JavaScript behaviour of splitting an empty string. -/
def splitLines : List Nat → List (List Nat)
  | [] => [[]]
  | c :: rest =>
    if c = 10 then [] :: splitLines rest
    else
      match splitLines rest with
      | [] => [[c]]
      | l :: ls => (c :: l) :: ls

/-- Helper for `dedupKeepFirst`: drop the characters already seen,
keeping the first occurrence of each new character. -/
def dedupAux (seen : List Nat) : List Nat → List Nat
  | [] => []
  | c :: rest =>
    if c ∈ seen then dedupAux seen rest
    else c :: dedupAux (c :: seen) rest

/-- Model of spreading a JavaScript `Set` built from a list: `Set` iteration
order is insertion order, so the spread keeps the first occurrence of each
element. -/
def dedupKeepFirst (l : List Nat) : List Nat :=
  dedupAux [] l

/-- Model of `extractKanjiByLines` (App.tsx lines 185–202): split the input on
newlines, keep only the CJK characters of each line (in order), optionally
deduplicate within the line, and drop lines with no characters left. -/
def extractKanjiByLines (removeDuplicates : Bool) (text : List Nat) :
    List (List Nat) :=
  ((splitLines text).map fun line =>
    let ms := line.filter isKanji
    if removeDuplicates then dedupKeepFirst ms else ms)
    |>.filter fun line => !line.isEmpty

/-- The sort orders offered by the `sortOrder` select control. -/
inductive SortOrder
  | noOrder
  | strokeAsc
  | strokeDesc
  | unicodeAsc
  | unicodeDesc
deriving DecidableEq

/-- Model of `getStrokeCountFromKanjiVG` (App.tsx lines 166–179): the Illustration
Provider is a function returning the per-character stroke-path count, or
`none` when fetching fails; on failure the fixed default 10 is used. -/
def getStrokeCountFromKanjiVG (provider : Nat → Option Nat) (k : Nat) : Nat :=
  (provider k).getD 10

/-- The stroke count used for sorting one character (App.tsx lines 214–220):
the cached value if present, otherwise the path count reported by the
provider (10 on failure). -/
def strokeCountOf (cache : List (Nat × Nat)) (provider : Nat → Option Nat)
    (k : Nat) : Nat :=
  match cache.lookup k with
  | some n => n
  | none => getStrokeCountFromKanjiVG provider k

/-- Comparator `(a, b) => a.key - b.key` of the ascending sorts: an element
goes no later than another when its sort key is no larger. -/
def leSnd (a b : Nat × Nat) : Prop := a.2 ≤ b.2

/-- Comparator `(a, b) => b.key - a.key` of the descending sorts. -/
def geSnd (a b : Nat × Nat) : Prop := b.2 ≤ a.2

instance : DecidableRel leSnd := fun a b => Nat.decLe a.2 b.2

instance : DecidableRel geSnd := fun a b => Nat.decLe b.2 a.2

instance : IsTotal (Nat × Nat) leSnd := ⟨fun a b => Nat.le_total a.2 b.2⟩

instance : IsTotal (Nat × Nat) geSnd := ⟨fun a b => Nat.le_total b.2 a.2⟩

instance : IsTrans (Nat × Nat) leSnd := ⟨fun _ _ _ h h' => Nat.le_trans h h'⟩

instance : IsTrans (Nat × Nat) geSnd := ⟨fun _ _ _ h h' => Nat.le_trans h' h⟩

/-- One line of `sortKanji` (App.tsx lines 209–250): pair every character
with its sort key (stroke count or code point), stable-sort by the key,
and project the characters back out.  `noOrder` passes the line through. -/
def sortLine (order : SortOrder) (cache : List (Nat × Nat))
    (provider : Nat → Option Nat) (line : List Nat) : List Nat :=
  match order with
  | .strokeAsc =>
    ((line.map fun k => (k, strokeCountOf cache provider k)).insertionSort
      leSnd).map Prod.fst
  | .strokeDesc =>
    ((line.map fun k => (k, strokeCountOf cache provider k)).insertionSort
      geSnd).map Prod.fst
  | .unicodeAsc =>
    ((line.map fun k => (k, k)).insertionSort leSnd).map Prod.fst
  | .unicodeDesc =>
    ((line.map fun k => (k, k)).insertionSort geSnd).map Prod.fst
  | .noOrder => line

/-- Model of `sortKanji` (App.tsx lines 205–254): with order `none` the document is
returned unchanged; otherwise every line is sorted independently. -/
def sortKanji (order : SortOrder) (cache : List (Nat × Nat))
    (provider : Nat → Option Nat) (doc : List (List Nat)) :
    List (List Nat) :=
  match order with
  | .noOrder => doc
  | _ => doc.map (sortLine order cache provider)

/-- Model of `maxKanjiPerRow` (App.tsx line 272): `Math.floor(190 / kanjiSizeMm)`. -/
def maxKanjiPerRow (kanjiSizeMm : Nat) : Nat :=
  190 / kanjiSizeMm

/-- Step-indexed model of the chunking loop of `createDrillLayout`
(App.tsx lines 281–283),
`for (let i = 0; i < lineKanji.length; i += maxKanjiPerRow)`:
each iteration slices off the next `k` characters; `none` means the loop
has not terminated within `fuel` iterations. -/
def chunksLoop (k : Nat) : Nat → List Nat → Option (List (List Nat))
  | _, [] => some []
  | 0, _ :: _ => none
  | fuel + 1, c :: rest =>
    ((c :: rest).drop k |> chunksLoop k fuel).map ((c :: rest).take k :: ·)

/-- The denotation of the chunking loop when it terminates: `l.length`
iterations of fuel always suffice when `1 ≤ k`. -/
def chunks (k : Nat) (l : List Nat) : List (List Nat) :=
  (chunksLoop k l.length l).getD []

/-- A rendered practice row: each cell is a character paired with its
`showNumbers` flag. -/
abbrev Row := List (Nat × Bool)

/-- One element pushed onto `rows` by `createDrillLayout`: either a
numbered-row/plain-row pair for one chunk, or the `line-break` spacer. -/
inductive DrillItem
  | pair (numbered plain : Row)
  | lineBreak
deriving DecidableEq

/-- The pair emitted for one chunk (App.tsx lines 285–313): the same
characters rendered once with stroke numbers and once without. -/
def layoutChunk (c : List Nat) : DrillItem :=
  DrillItem.pair (c.map fun k => (k, true)) (c.map fun k => (k, false))

/-- Model of `createDrillLayout` (App.tsx lines 275–327): for every line emit one
numbered+plain pair per chunk, and a line-break marker after every line
except the last. -/
def createDrillLayout (k : Nat) : List (List Nat) → List DrillItem
  | [] => []
  | [l] => (chunks k l).map layoutChunk
  | l :: l' :: rest =>
    (chunks k l).map layoutChunk
      ++ DrillItem.lineBreak :: createDrillLayout k (l' :: rest)

/-- Projection extracting, from one layout item, the characters of its
numbered row (and nothing from a line break). -/
def pairChars : DrillItem → Option (List Nat)
  | .pair n _ => some (n.map Prod.fst)
  | .lineBreak => none

/-! ### Deduplication lemmas -/

theorem mem_dedupAux {c : Nat} :
    ∀ {seen l : List Nat}, c ∈ dedupAux seen l ↔ c ∈ l ∧ c ∉ seen := by
  intro seen l
  induction l generalizing seen with
  | nil => simp [dedupAux]
  | cons a rest ih =>
    by_cases ha : a ∈ seen
    · rw [dedupAux, if_pos ha, ih]
      simp only [List.mem_cons]
      aesop
    · rw [dedupAux, if_neg ha]
      constructor
      · intro h
        rcases List.mem_cons.mp h with rfl | h
        · exact ⟨List.mem_cons_self _ _, ha⟩
        · obtain ⟨hm, hs⟩ := ih.mp h
          have hs' : c ∉ seen := fun hx => hs (List.mem_cons_of_mem _ hx)
          exact ⟨List.mem_cons_of_mem _ hm, hs'⟩
      · rintro ⟨hm, hs⟩
        rcases List.mem_cons.mp hm with rfl | h
        · exact List.mem_cons_self _ _
        · by_cases hca : c = a
          · exact hca ▸ List.mem_cons_self _ _
          · refine List.mem_cons_of_mem _ (ih.mpr ⟨h, ?_⟩)
            simp [hca, hs]

theorem mem_dedupKeepFirst {c : Nat} {l : List Nat} :
    c ∈ dedupKeepFirst l ↔ c ∈ l := by
  simp [dedupKeepFirst, mem_dedupAux]

theorem nodup_dedupAux : ∀ (seen l : List Nat), (dedupAux seen l).Nodup := by
  intro seen l
  induction l generalizing seen with
  | nil => simp [dedupAux]
  | cons a rest ih =>
    by_cases ha : a ∈ seen
    · simpa [dedupAux, if_pos ha] using ih seen
    · simp only [dedupAux, if_neg ha, List.nodup_cons]
      refine ⟨fun hmem => ?_, ih (a :: seen)⟩
      exact (mem_dedupAux.mp hmem).2 (List.mem_cons_self a seen)

theorem nodup_dedupKeepFirst (l : List Nat) : (dedupKeepFirst l).Nodup :=
  nodup_dedupAux [] l

theorem dedupAux_eq_nil {seen l : List Nat} :
    dedupAux seen l = [] ↔ ∀ c ∈ l, c ∈ seen := by
  induction l generalizing seen with
  | nil => simp [dedupAux]
  | cons a rest ih =>
    by_cases ha : a ∈ seen
    · simp [dedupAux, if_pos ha, ih, ha]
    · simp [dedupAux, if_neg ha, ha]

theorem dedupKeepFirst_eq_nil {l : List Nat} :
    dedupKeepFirst l = [] ↔ l = [] := by
  simp only [dedupKeepFirst, dedupAux_eq_nil]
  constructor
  · intro h
    cases l with
    | nil => rfl
    | cons a rest => exact absurd (h a (List.mem_cons_self a rest)) (by simp)
  · rintro rfl
    simp

theorem indexOf_dedupAux_lt_iff {seen l : List Nat} {a b : Nat}
    (hane : a ∉ seen) (hbne : b ∉ seen) (ha : a ∈ l) (hb : b ∈ l)
    (hab : a ≠ b) :
    (dedupAux seen l).indexOf a < (dedupAux seen l).indexOf b ↔
      l.indexOf a < l.indexOf b := by
  induction l generalizing seen with
  | nil => cases ha
  | cons c rest ih =>
    by_cases hc : c ∈ seen
    · have hac : a ≠ c := fun h => hane (h ▸ hc)
      have hbc : b ≠ c := fun h => hbne (h ▸ hc)
      have ha' : a ∈ rest := by
        cases List.mem_cons.mp ha with
        | inl h => exact absurd h hac
        | inr h => exact h
      have hb' : b ∈ rest := by
        cases List.mem_cons.mp hb with
        | inl h => exact absurd h hbc
        | inr h => exact h
      rw [dedupAux, if_pos hc, List.indexOf_cons_ne _ (Ne.symm hac),
        List.indexOf_cons_ne _ (Ne.symm hbc)]
      rw [ih hane hbne ha' hb']
      omega
    · rw [dedupAux, if_neg hc]
      by_cases hac : a = c
      · subst hac
        rw [List.indexOf_cons_self, List.indexOf_cons_self,
          List.indexOf_cons_ne _ hab, List.indexOf_cons_ne _ hab]
        omega
      · by_cases hbc : b = c
        · subst hbc
          rw [List.indexOf_cons_self, List.indexOf_cons_self,
            List.indexOf_cons_ne _ (Ne.symm hab),
            List.indexOf_cons_ne _ (Ne.symm hab)]
          omega
        · have ha' : a ∈ rest := by
            cases List.mem_cons.mp ha with
            | inl h => exact absurd h hac
            | inr h => exact h
          have hb' : b ∈ rest := by
            cases List.mem_cons.mp hb with
            | inl h => exact absurd h hbc
            | inr h => exact h
          have hane' : a ∉ c :: seen := by simp [hac, hane]
          have hbne' : b ∉ c :: seen := by simp [hbc, hbne]
          rw [List.indexOf_cons_ne _ (Ne.symm hac),
            List.indexOf_cons_ne _ (Ne.symm hbc),
            List.indexOf_cons_ne _ (Ne.symm hac),
            List.indexOf_cons_ne _ (Ne.symm hbc)]
          have := ih hane' hbne' ha' hb'
          omega

theorem indexOf_dedupKeepFirst_lt_iff {l : List Nat} {a b : Nat}
    (ha : a ∈ l) (hb : b ∈ l) (hab : a ≠ b) :
    (dedupKeepFirst l).indexOf a < (dedupKeepFirst l).indexOf b ↔
      l.indexOf a < l.indexOf b :=
  indexOf_dedupAux_lt_iff (by simp) (by simp) ha hb hab

/-! ### Chunking-loop lemmas -/

theorem chunksLoop_zero : ∀ (fuel : Nat) {l : List Nat}, l ≠ [] →
    chunksLoop 0 fuel l = none := by
  intro fuel
  induction fuel with
  | zero =>
    intro l h
    cases l with
    | nil => exact absurd rfl h
    | cons c rest => rfl
  | succ fuel ih =>
    intro l h
    cases l with
    | nil => exact absurd rfl h
    | cons c rest =>
      simp only [chunksLoop, List.drop_zero]
      rw [ih (by simp)]
      rfl

theorem chunksLoop_isSome {k : Nat} (hk : 1 ≤ k) :
    ∀ (fuel : Nat) (l : List Nat), l.length ≤ fuel →
      (chunksLoop k fuel l).isSome = true := by
  intro fuel
  induction fuel with
  | zero =>
    intro l hl
    cases l with
    | nil => rfl
    | cons c rest => simp at hl
  | succ fuel ih =>
    intro l hl
    cases l with
    | nil => rfl
    | cons c rest =>
      simp only [chunksLoop]
      have hlen : ((c :: rest).drop k).length ≤ fuel := by
        simp only [List.length_drop, List.length_cons] at *
        omega
      have hs := ih _ hlen
      obtain ⟨cs, hx⟩ := Option.isSome_iff_exists.mp hs
      rw [hx]
      rfl

theorem chunksLoop_fuel_eq {k : Nat} (hk : 1 ≤ k) :
    ∀ (fuel₁ fuel₂ : Nat) (l : List Nat), l.length ≤ fuel₁ →
      l.length ≤ fuel₂ → chunksLoop k fuel₁ l = chunksLoop k fuel₂ l := by
  intro fuel₁
  induction fuel₁ with
  | zero =>
    intro fuel₂ l h1 h2
    cases l with
    | nil => cases fuel₂ <;> rfl
    | cons c rest => simp at h1
  | succ f1 ih =>
    intro fuel₂ l h1 h2
    cases l with
    | nil => cases fuel₂ <;> rfl
    | cons c rest =>
      cases fuel₂ with
      | zero => simp at h2
      | succ f2 =>
        simp only [chunksLoop]
        congr 1
        apply ih
        · simp only [List.length_drop, List.length_cons] at *
          omega
        · simp only [List.length_drop, List.length_cons] at *
          omega

theorem chunksLoop_eq_chunks {k : Nat} (hk : 1 ≤ k) {fuel : Nat}
    {l : List Nat} (h : l.length ≤ fuel) :
    chunksLoop k fuel l = some (chunks k l) := by
  rw [chunks]
  rw [chunksLoop_fuel_eq hk fuel l.length l h (Nat.le_refl _)]
  have hs := chunksLoop_isSome hk l.length l (Nat.le_refl _)
  cases hx : chunksLoop k l.length l with
  | none => rw [hx] at hs; simp at hs
  | some cs => simp [hx]

theorem chunks_cons {k : Nat} (hk : 1 ≤ k) (c : Nat) (rest : List Nat) :
    chunks k (c :: rest) =
      (c :: rest).take k :: chunks k ((c :: rest).drop k) := by
  have h2 : chunksLoop k rest.length ((c :: rest).drop k) =
      some (chunks k ((c :: rest).drop k)) :=
    chunksLoop_eq_chunks hk (by simp only [List.length_drop, List.length_cons]; omega)
  have h3 : chunksLoop k (rest.length + 1) (c :: rest) =
      some ((c :: rest).take k :: chunks k ((c :: rest).drop k)) := by
    simp only [chunksLoop, h2, Option.map_some']
  have h4 : chunksLoop k (rest.length + 1) (c :: rest) =
      some (chunks k (c :: rest)) :=
    chunksLoop_eq_chunks hk (by simp)
  exact Option.some.inj (h4.symm.trans h3)

theorem chunks_flatten {k : Nat} (hk : 1 ≤ k) (l : List Nat) :
    (chunks k l).flatten = l := by
  generalize hn : l.length = n
  induction n using Nat.strong_induction_on generalizing l with
  | _ n ih =>
    cases l with
    | nil => rfl
    | cons c rest =>
      rw [chunks_cons hk, List.flatten_cons]
      rw [ih ((c :: rest).drop k).length ?_ _ rfl]
      · exact List.take_append_drop k (c :: rest)
      · subst hn
        simp only [List.length_drop, List.length_cons]
        omega

theorem chunks_length_le {k : Nat} (hk : 1 ≤ k) (l : List Nat) :
    ∀ c ∈ chunks k l, c.length ≤ k := by
  generalize hn : l.length = n
  induction n using Nat.strong_induction_on generalizing l with
  | _ n ih =>
    cases l with
    | nil => intro c hc; exact absurd hc (List.not_mem_nil c)
    | cons a rest =>
      rw [chunks_cons hk]
      intro c hc
      rcases List.mem_cons.mp hc with rfl | hc
      · exact List.length_take_le k (a :: rest)
      · refine ih ((a :: rest).drop k).length ?_ _ rfl c hc
        subst hn
        simp only [List.length_drop, List.length_cons]
        omega

theorem chunks_of_short {k : Nat} (hk : 1 ≤ k) {l : List Nat}
    (hne : l ≠ []) (hlen : l.length ≤ k) : chunks k l = [l] := by
  cases l with
  | nil => exact absurd rfl hne
  | cons c rest =>
    rw [chunks_cons hk]
    have htake : (c :: rest).take k = c :: rest :=
      List.take_of_length_le hlen
    have hdrop : (c :: rest).drop k = [] :=
      List.drop_eq_nil_of_le hlen
    rw [htake, hdrop]
    rfl

/-! ### Sorting lemmas -/

theorem map_fst_keyPairs {β : Type} (f : Nat → β) (line : List Nat) :
    (line.map fun ch => (ch, f ch)).map Prod.fst = line := by
  induction line with
  | nil => rfl
  | cons a l ih => simp only [List.map_cons, ih]

theorem snd_eq_of_mem_keyPairs {f : Nat → Nat} {line : List Nat}
    {x : Nat × Nat} (hx : x ∈ line.map fun ch => (ch, f ch)) :
    x.2 = f x.1 := by
  obtain ⟨ch, _, rfl⟩ := List.mem_map.mp hx
  rfl

theorem pairwise_fst {R : Nat → Nat → Prop} {r : Nat × Nat → Nat × Nat → Prop}
    {lp : List (Nat × Nat)} (himp : ∀ x y, x ∈ lp → y ∈ lp → r x y → R x.1 y.1)
    (hs : List.Pairwise r lp) : List.Pairwise R (lp.map Prod.fst) := by
  rw [List.pairwise_map]
  exact hs.imp_of_mem (fun ha hb h => himp _ _ ha hb h)

theorem filter_orderedInsert_key {r : Nat × Nat → Nat × Nat → Prop}
    [DecidableRel r] (hr : ∀ x y : Nat × Nat, ¬r x y → x.2 ≠ y.2) (n : Nat)
    (x : Nat × Nat) :
    ∀ l : List (Nat × Nat),
      (List.orderedInsert r x l).filter (fun y => y.2 == n) =
        if x.2 = n then x :: l.filter (fun y => y.2 == n)
        else l.filter (fun y => y.2 == n) := by
  intro l
  induction l with
  | nil =>
    by_cases hx : x.2 = n <;>
      simp [List.orderedInsert, List.filter_cons, List.filter_nil, hx]
  | cons b t ih =>
    rw [List.orderedInsert]
    by_cases hrb : r x b
    · rw [if_pos hrb]
      by_cases hx : x.2 = n <;> simp [List.filter_cons, hx]
    · rw [if_neg hrb]
      have hxb : x.2 ≠ b.2 := hr x b hrb
      by_cases hx : x.2 = n
      · have hb : (b.2 == n) = false := by
          subst hx
          exact beq_false_of_ne fun h => hxb h.symm
        simp [List.filter_cons, hb, ih, hx]
      · simp [List.filter_cons, ih, hx]

theorem filter_insertionSort_key {r : Nat × Nat → Nat × Nat → Prop}
    [DecidableRel r] (hr : ∀ x y : Nat × Nat, ¬r x y → x.2 ≠ y.2) (n : Nat) :
    ∀ l : List (Nat × Nat),
      (List.insertionSort r l).filter (fun y => y.2 == n) =
        l.filter (fun y => y.2 == n) := by
  intro l
  induction l with
  | nil => rfl
  | cons x t ih =>
    rw [List.insertionSort, filter_orderedInsert_key hr n x]
    by_cases hx : x.2 = n <;> simp [List.filter_cons, hx, ih]

theorem filter_map_fst {f : Nat → Nat} {n : Nat} :
    ∀ {L : List (Nat × Nat)}, (∀ x ∈ L, x.2 = f x.1) →
      (L.filter (fun y => y.2 == n)).map Prod.fst =
        (L.map Prod.fst).filter (fun ch => f ch == n) := by
  intro L
  induction L with
  | nil => intro _; rfl
  | cons x t ih =>
    intro h
    have hx : x.2 = f x.1 := h x (List.mem_cons_self _ _)
    have ht : ∀ y ∈ t, y.2 = f y.1 := fun y hy => h y (List.mem_cons_of_mem _ hy)
    rw [List.map_cons, List.filter_cons, List.filter_cons, hx]
    by_cases hc : f x.1 = n <;> simp [hc, ih ht]

theorem not_leSnd_ne (x y : Nat × Nat) : ¬leSnd x y → x.2 ≠ y.2 := by
  intro h
  simp only [leSnd, Nat.not_le] at h
  omega

theorem not_geSnd_ne (x y : Nat × Nat) : ¬geSnd x y → x.2 ≠ y.2 := by
  intro h
  simp only [geSnd, Nat.not_le] at h
  omega

theorem sortPairs_perm {r : Nat × Nat → Nat × Nat → Prop} [DecidableRel r]
    (f : Nat → Nat) (line : List Nat) :
    ((((line.map fun ch => (ch, f ch)).insertionSort r).map Prod.fst)).Perm
      line := by
  have h := (List.perm_insertionSort r
    (line.map fun ch => (ch, f ch))).map Prod.fst
  rwa [map_fst_keyPairs] at h

theorem sortPairs_pairwise {R : Nat → Nat → Prop}
    {r : Nat × Nat → Nat × Nat → Prop} [DecidableRel r]
    [IsTotal (Nat × Nat) r] [IsTrans (Nat × Nat) r] (f : Nat → Nat)
    (himp : ∀ x y : Nat × Nat, x.2 = f x.1 → y.2 = f y.1 → r x y → R x.1 y.1)
    (line : List Nat) :
    List.Pairwise R (((line.map fun ch => (ch, f ch)).insertionSort r).map
      Prod.fst) := by
  have hs := List.sorted_insertionSort r (line.map fun ch => (ch, f ch))
  refine pairwise_fst (fun x y hx hy hr => ?_) hs
  have hx2 := snd_eq_of_mem_keyPairs ((List.mem_insertionSort r).mp hx)
  have hy2 := snd_eq_of_mem_keyPairs ((List.mem_insertionSort r).mp hy)
  exact himp x y hx2 hy2 hr

theorem sortPairs_filter {r : Nat × Nat → Nat × Nat → Prop} [DecidableRel r]
    (hr : ∀ x y : Nat × Nat, ¬r x y → x.2 ≠ y.2) (f : Nat → Nat) (n : Nat)
    (line : List Nat) :
    ((((line.map fun ch => (ch, f ch)).insertionSort r).map Prod.fst).filter
        fun ch => f ch == n) =
      line.filter (fun ch => f ch == n) := by
  have hlp : ∀ x ∈ (line.map fun ch => (ch, f ch)), x.2 = f x.1 :=
    fun x hx => snd_eq_of_mem_keyPairs hx
  have hsort : ∀ x ∈ (line.map fun ch => (ch, f ch)).insertionSort r,
      x.2 = f x.1 :=
    fun x hx => hlp x ((List.mem_insertionSort r).mp hx)
  rw [← filter_map_fst hsort, filter_insertionSort_key hr n,
    filter_map_fst hlp, map_fst_keyPairs]

/-! ### Layout lemmas -/

theorem mem_createDrillLayout {k : Nat} {it : DrillItem} :
    ∀ {doc : List (List Nat)}, it ∈ createDrillLayout k doc →
      (∃ c, c ∈ (doc.map (chunks k)).flatten ∧ it = layoutChunk c)
      ∨ it = DrillItem.lineBreak := by
  intro doc
  induction doc with
  | nil => intro h; exact absurd h (List.not_mem_nil it)
  | cons l rest ih =>
    intro h
    cases rest with
    | nil =>
      obtain ⟨c, hc, rfl⟩ := List.mem_map.mp h
      exact Or.inl ⟨c, by simpa using hc, rfl⟩
    | cons l' rest' =>
      rw [createDrillLayout] at h
      rcases List.mem_append.mp h with h | h
      · obtain ⟨c, hc, rfl⟩ := List.mem_map.mp h
        exact Or.inl ⟨c, by simp [hc], rfl⟩
      · rcases List.mem_cons.mp h with rfl | h
        · exact Or.inr rfl
        · rcases ih h with ⟨c, hc, rfl⟩ | h
          · refine Or.inl ⟨c, ?_, rfl⟩
            simp only [List.map_cons, List.flatten_cons, List.mem_append]
            exact Or.inr (by simpa using hc)
          · exact Or.inr h

theorem filterMap_pairChars_layoutChunks (cs : List (List Nat)) :
    (cs.map layoutChunk).filterMap pairChars = cs := by
  induction cs with
  | nil => rfl
  | cons c rest ih =>
    simp only [List.map_cons, List.filterMap_cons]
    rw [show pairChars (layoutChunk c) = some (c.map (fun ch => (ch, true))
      |>.map Prod.fst) from rfl]
    rw [map_fst_keyPairs (fun _ => true) c, ih]

theorem filterMap_pairChars_createDrillLayout (k : Nat) :
    ∀ doc : List (List Nat),
      (createDrillLayout k doc).filterMap pairChars =
        (doc.map (chunks k)).flatten := by
  intro doc
  induction doc with
  | nil => rfl
  | cons l rest ih =>
    cases rest with
    | nil =>
      simp only [createDrillLayout, List.map_cons, List.map_nil,
        List.flatten_cons, List.flatten_nil, List.append_nil]
      exact filterMap_pairChars_layoutChunks _
    | cons l' rest' =>
      rw [createDrillLayout, List.filterMap_append]
      rw [filterMap_pairChars_layoutChunks]
      simp only [List.filterMap_cons]
      rw [show pairChars DrillItem.lineBreak = none from rfl]
      rw [ih]
      simp [List.flatten_cons]

theorem lineBreak_not_mem_layoutChunks (cs : List (List Nat)) :
    DrillItem.lineBreak ∉ cs.map layoutChunk := by
  intro h
  obtain ⟨c, _, hc⟩ := List.mem_map.mp h
  exact DrillItem.noConfusion hc

theorem count_lineBreak_createDrillLayout (k : Nat) :
    ∀ doc : List (List Nat),
      (createDrillLayout k doc).count DrillItem.lineBreak = doc.length - 1 := by
  intro doc
  induction doc with
  | nil => rfl
  | cons l rest ih =>
    cases rest with
    | nil =>
      simp only [createDrillLayout, List.length_cons, List.length_nil]
      exact List.count_eq_zero.mpr (lineBreak_not_mem_layoutChunks _)
    | cons l' rest' =>
      rw [createDrillLayout, List.count_append, List.count_cons]
      rw [List.count_eq_zero.mpr (lineBreak_not_mem_layoutChunks _), ih]
      simp only [List.length_cons, beq_self_eq_true, if_true]
      omega

/-! ### Extraction lemmas -/

theorem isEmpty_dedupKeepFirst (m : List Nat) :
    (dedupKeepFirst m).isEmpty = m.isEmpty := by
  cases m with
  | nil => rfl
  | cons a t =>
    have hne : dedupKeepFirst (a :: t) ≠ [] := fun h => by
      have := dedupKeepFirst_eq_nil.mp h
      simp at this
    cases hd : dedupKeepFirst (a :: t) with
    | nil => exact absurd hd hne
    | cons x xs => rfl

/-! ### Claim theorems -/

/-- C1: for every input text and deduplicate flag, every character of every
line of the document produced by `extractKanjiByLines` satisfies `isKanji`
(it lies in U+4E00–U+9FAF or U+3400–U+4DBF), every line is non-empty, and
exactly the input lines yielding zero in-range characters are dropped. -/
theorem claim_C1 (d : Bool) (text : List Nat) :
    ((extractKanjiByLines d text).all fun line =>
        !line.isEmpty && line.all isKanji) = true
    ∧ (extractKanjiByLines d text).length =
        (splitLines text).countP fun line => !(line.filter isKanji).isEmpty := by
  constructor
  · rw [List.all_eq_true]
    intro line hline
    simp only [extractKanjiByLines] at hline
    obtain ⟨hmem, hne⟩ := List.mem_filter.mp hline
    obtain ⟨l₀, _, rfl⟩ := List.mem_map.mp hmem
    rw [Bool.and_eq_true]
    refine ⟨hne, ?_⟩
    rw [List.all_eq_true]
    intro c hc
    have hc' : c ∈ l₀.filter isKanji := by
      cases d with
      | false => simpa using hc
      | true => simpa [mem_dedupKeepFirst] using hc
    exact (List.mem_filter.mp hc').2
  · simp only [extractKanjiByLines]
    rw [← List.countP_eq_length_filter, List.countP_map]
    apply List.countP_congr
    intro l₀ _
    cases d with
    | false => simp [Function.comp]
    | true => simp [Function.comp, isEmpty_dedupKeepFirst]

/-- C2: for every line and every row capacity of at least 1, the chunking
loop of the layout engine splits the line into consecutive chunks of length
at most the capacity, concatenating the chunks restores the line exactly,
and a non-empty line no longer than one row yields the single chunk equal
to the whole line. -/
theorem claim_C2 (k : Nat) (line : List Nat) (hk : 1 ≤ k) :
    (∀ c ∈ chunks k line, c.length ≤ k)
    ∧ (chunks k line).flatten = line
    ∧ (line ≠ [] → line.length ≤ k → chunks k line = [line]) :=
  ⟨chunks_length_le hk line, chunks_flatten hk line,
    fun hne hlen => chunks_of_short hk hne hlen⟩

/-- Witness for C2 at capacity 9 and the line consisting of the two kanji
of the concrete scenario. -/
theorem claim_C2_witness :
    (chunks 9 [0x6f22, 0x5b57]).flatten = [0x6f22, 0x5b57] :=
  (claim_C2 9 [0x6f22, 0x5b57] (by decide)).2.1

/-- C3: every pair item of the layout carries the same characters in the
same order in its numbered (annotated) row and its plain row, with stroke
numbers shown exactly on the first; the pairs correspond one-to-one and in
order to the chunks of the document lines; and exactly one line-break
marker is emitted per line except after the last line (the count is the
number of lines minus one, and the marker sits right after the chunks of
each non-final line). -/
theorem claim_C3 (k : Nat) (doc : List (List Nat)) :
    (∀ n p, DrillItem.pair n p ∈ createDrillLayout k doc →
        n.map Prod.fst = p.map Prod.fst
        ∧ (∀ x ∈ n, x.2 = true) ∧ (∀ x ∈ p, x.2 = false))
    ∧ (createDrillLayout k doc).filterMap pairChars =
        (doc.map (chunks k)).flatten
    ∧ (createDrillLayout k doc).count DrillItem.lineBreak = doc.length - 1
    ∧ (∀ l rest, rest ≠ [] →
        createDrillLayout k (l :: rest) =
          (chunks k l).map layoutChunk ++
            DrillItem.lineBreak :: createDrillLayout k rest) := by
  refine ⟨?_, filterMap_pairChars_createDrillLayout k doc,
    count_lineBreak_createDrillLayout k doc, ?_⟩
  · intro n p h
    rcases mem_createDrillLayout h with ⟨c, _, heq⟩ | heq
    · rw [layoutChunk] at heq
      obtain ⟨rfl, rfl⟩ := DrillItem.pair.inj heq
      refine ⟨?_, ?_, ?_⟩
      · rw [map_fst_keyPairs (fun _ => true), map_fst_keyPairs (fun _ => false)]
      · intro x hx
        obtain ⟨ch, _, rfl⟩ := List.mem_map.mp hx
        rfl
      · intro x hx
        obtain ⟨ch, _, rfl⟩ := List.mem_map.mp hx
        rfl
    · exact DrillItem.noConfusion heq
  · intro l rest hne
    cases rest with
    | nil => exact absurd rfl hne
    | cons l' rest' => rfl

/-- C4: with deduplication on, every line of the document is free of
repeated characters, the kept occurrence is the first one and first-seen
order is preserved (indices in the deduplicated line are ordered exactly as
the first occurrences in the raw line), nothing else is dropped,
deduplication is per line (the same character may appear in several lines,
as the concrete input shows), and with the flag off each line keeps the
exact multiplicities of the in-range characters of the input line. -/
theorem claim_C4 (text : List Nat) :
    (∀ line ∈ extractKanjiByLines true text, line.Nodup)
    ∧ extractKanjiByLines true text =
        ((splitLines text).map fun l => dedupKeepFirst (l.filter isKanji)).filter
          (fun l => !l.isEmpty)
    ∧ (∀ l : List Nat, ∀ a b, a ∈ l → b ∈ l → a ≠ b →
        ((dedupKeepFirst l).indexOf a < (dedupKeepFirst l).indexOf b ↔
          l.indexOf a < l.indexOf b))
    ∧ (∀ (l : List Nat) (c : Nat), c ∈ dedupKeepFirst l ↔ c ∈ l)
    ∧ extractKanjiByLines true [0x4e00, 10, 0x4e00] = [[0x4e00], [0x4e00]]
    ∧ extractKanjiByLines false text =
        ((splitLines text).map fun l => l.filter isKanji).filter
          (fun l => !l.isEmpty)
    ∧ (∀ (l : List Nat) (c : Nat), isKanji c = true →
        (l.filter isKanji).count c = l.count c) := by
  refine ⟨?_, rfl, ?_, ?_, by decide, rfl, ?_⟩
  · intro line hline
    simp only [extractKanjiByLines] at hline
    obtain ⟨hmem, _⟩ := List.mem_filter.mp hline
    obtain ⟨l₀, _, rfl⟩ := List.mem_map.mp hmem
    exact nodup_dedupKeepFirst _
  · intro l a b ha hb hab
    exact indexOf_dedupKeepFirst_lt_iff ha hb hab
  · intro l c
    exact mem_dedupKeepFirst
  · intro l c hc
    exact List.count_filter hc

/-- C5: the unicode orders sort every line independently (the document map
is line-wise), each sorted line is a permutation of its input line sorted
by scalar value (ascending or descending), the mode with no order passes
the document through unchanged, and the concrete line of the spec sorts to
the stated outputs, the descending one being the exact reverse. -/
theorem claim_C5 (cache : List (Nat × Nat)) (provider : Nat → Option Nat) :
    (∀ doc, sortKanji SortOrder.noOrder cache provider doc = doc)
    ∧ (∀ doc, sortKanji SortOrder.unicodeAsc cache provider doc =
          doc.map (sortLine SortOrder.unicodeAsc cache provider)
        ∧ sortKanji SortOrder.unicodeDesc cache provider doc =
          doc.map (sortLine SortOrder.unicodeDesc cache provider))
    ∧ (∀ line, (sortLine SortOrder.unicodeAsc cache provider line).Perm line
        ∧ List.Pairwise (fun a b : Nat => a ≤ b)
            (sortLine SortOrder.unicodeAsc cache provider line))
    ∧ (∀ line, (sortLine SortOrder.unicodeDesc cache provider line).Perm line
        ∧ List.Pairwise (fun a b : Nat => b ≤ a)
            (sortLine SortOrder.unicodeDesc cache provider line))
    ∧ sortKanji SortOrder.unicodeAsc cache provider [[0x6728, 0x4e00, 0x4eba]] =
        [[0x4e00, 0x4eba, 0x6728]]
    ∧ sortKanji SortOrder.unicodeDesc cache provider [[0x6728, 0x4e00, 0x4eba]] =
        [[0x6728, 0x4eba, 0x4e00]] := by
  refine ⟨fun doc => rfl, fun doc => ⟨rfl, rfl⟩, ?_, ?_, rfl, rfl⟩
  · intro line
    refine ⟨sortPairs_perm (r := leSnd) (fun x => x) line, ?_⟩
    refine sortPairs_pairwise (r := leSnd) (fun x => x)
      (fun x y hx hy hr => ?_) line
    have hx' : x.2 = x.1 := hx
    have hy' : y.2 = y.1 := hy
    rw [← hx', ← hy']
    exact hr
  · intro line
    refine ⟨sortPairs_perm (r := geSnd) (fun x => x) line, ?_⟩
    refine sortPairs_pairwise (r := geSnd) (fun x => x)
      (fun x y hx hy hr => ?_) line
    have hx' : x.2 = x.1 := hx
    have hy' : y.2 = y.1 := hy
    rw [← hx', ← hy']
    exact hr

/-- C6: in the stroke orders every character receives the stroke count from
the cache when cached, else the provider path count, else the fixed default
10; sorting is line-wise, every sorted line is a permutation of its input
(no character is ever dropped, so sorting is total), it is ordered by the
stroke count, and it is stable: for every count value, the subsequence of
characters with that count is exactly as in the input line. -/
theorem claim_C6 (cache : List (Nat × Nat)) (provider : Nat → Option Nat) :
    (∀ k n, cache.lookup k = some n → strokeCountOf cache provider k = n)
    ∧ (∀ k n, cache.lookup k = Option.none → provider k = some n →
        strokeCountOf cache provider k = n)
    ∧ (∀ k, cache.lookup k = Option.none → provider k = Option.none →
        strokeCountOf cache provider k = 10)
    ∧ (∀ doc, sortKanji SortOrder.strokeAsc cache provider doc =
          doc.map (sortLine SortOrder.strokeAsc cache provider)
        ∧ sortKanji SortOrder.strokeDesc cache provider doc =
          doc.map (sortLine SortOrder.strokeDesc cache provider))
    ∧ (∀ line, (sortLine SortOrder.strokeAsc cache provider line).Perm line
        ∧ List.Pairwise (fun a b =>
            strokeCountOf cache provider a ≤ strokeCountOf cache provider b)
            (sortLine SortOrder.strokeAsc cache provider line)
        ∧ ∀ n, (sortLine SortOrder.strokeAsc cache provider line).filter
              (fun ch => strokeCountOf cache provider ch == n) =
            line.filter (fun ch => strokeCountOf cache provider ch == n))
    ∧ (∀ line, (sortLine SortOrder.strokeDesc cache provider line).Perm line
        ∧ List.Pairwise (fun a b =>
            strokeCountOf cache provider b ≤ strokeCountOf cache provider a)
            (sortLine SortOrder.strokeDesc cache provider line)
        ∧ ∀ n, (sortLine SortOrder.strokeDesc cache provider line).filter
              (fun ch => strokeCountOf cache provider ch == n) =
            line.filter (fun ch => strokeCountOf cache provider ch == n)) := by
  refine ⟨?_, ?_, ?_, fun doc => ⟨rfl, rfl⟩, ?_, ?_⟩
  · intro k n h
    simp [strokeCountOf, h]
  · intro k n h1 h2
    simp [strokeCountOf, getStrokeCountFromKanjiVG, h1, h2]
  · intro k h1 h2
    simp [strokeCountOf, getStrokeCountFromKanjiVG, h1, h2]
  · intro line
    refine ⟨sortPairs_perm (r := leSnd) (strokeCountOf cache provider) line,
      ?_, ?_⟩
    · exact sortPairs_pairwise (r := leSnd) (strokeCountOf cache provider)
        (fun x y hx hy hr => by rw [← hx, ← hy]; exact hr) line
    · intro n
      exact sortPairs_filter not_leSnd_ne (strokeCountOf cache provider) n line
  · intro line
    refine ⟨sortPairs_perm (r := geSnd) (strokeCountOf cache provider) line,
      ?_, ?_⟩
    · exact sortPairs_pairwise (r := geSnd) (strokeCountOf cache provider)
        (fun x y hx hy hr => by rw [← hx, ← hy]; exact hr) line
    · intro n
      exact sortPairs_filter not_geSnd_ne (strokeCountOf cache provider) n line

/-- C7: for the printable-width budget 190 and any cell size in the valid
range 10–100, the per-row capacity is the floor of 190 divided by the cell
size and is at least 1. -/
theorem claim_C7 (s : Nat) (h10 : 10 ≤ s) (h100 : s ≤ 100) :
    maxKanjiPerRow s = 190 / s ∧ 1 ≤ maxKanjiPerRow s := by
  refine ⟨rfl, ?_⟩
  rw [maxKanjiPerRow, Nat.one_le_div_iff (by omega)]
  omega

/-- Witness for C7 at the default cell size 20. -/
theorem claim_C7_witness :
    maxKanjiPerRow 20 = 190 / 20 ∧ 1 ≤ maxKanjiPerRow 20 :=
  claim_C7 20 (by decide) (by decide)

/-- C8: the concrete scenario of the spec: the two-line input of the two
kanji with deduplication on yields two identical lines, cell size 20 gives
capacity 9, the order mode none passes the document through, and the
layout is one numbered+plain pair per line separated by exactly one
line-break marker. -/
theorem claim_C8 :
    extractKanjiByLines true [0x6f22, 0x5b57, 10, 0x6f22, 0x5b57] =
      [[0x6f22, 0x5b57], [0x6f22, 0x5b57]]
    ∧ maxKanjiPerRow 20 = 9
    ∧ sortKanji SortOrder.noOrder [] (fun _ => Option.none)
        [[0x6f22, 0x5b57], [0x6f22, 0x5b57]] =
        [[0x6f22, 0x5b57], [0x6f22, 0x5b57]]
    ∧ createDrillLayout (maxKanjiPerRow 20)
        (extractKanjiByLines true [0x6f22, 0x5b57, 10, 0x6f22, 0x5b57]) =
      [DrillItem.pair [(0x6f22, true), (0x5b57, true)]
          [(0x6f22, false), (0x5b57, false)],
        DrillItem.lineBreak,
        DrillItem.pair [(0x6f22, true), (0x5b57, true)]
          [(0x6f22, false), (0x5b57, false)]] :=
  ⟨by decide, by decide, by decide, by decide⟩

/-- C9: the claim says the cell size is clamped to a positive configured
range before the capacity computation, so the layout never sees an
out-of-range size.  The code has no clamp: an out-of-range stored or typed
size such as 200 reaches `maxKanjiPerRow`, which yields capacity 0, and
the chunking loop then never terminates on any non-empty line. -/
theorem claim_C9_unclamped_cellSize :
    maxKanjiPerRow 200 = 0
    ∧ ∀ fuel, chunksLoop (maxKanjiPerRow 200) fuel [0x4e00] = Option.none := by
  refine ⟨by decide, fun fuel => ?_⟩
  have h : maxKanjiPerRow 200 = 0 := by decide
  rw [h]
  exact chunksLoop_zero fuel (by simp)

/-- C10: the chunking loop terminates on every line exactly when the row
capacity is at least 1; a cell size above the 190-unit budget produces
capacity 0, and with capacity 0 the loop never terminates on any non-empty
line, whatever the iteration bound. -/
theorem claim_C10 (k : Nat) :
    ((∀ line : List Nat, ∃ fuel, (chunksLoop k fuel line).isSome = true) ↔
        1 ≤ k)
    ∧ (∀ s : Nat, 190 < s → maxKanjiPerRow s = 0)
    ∧ (∀ line : List Nat, line ≠ [] → ∀ fuel,
        chunksLoop 0 fuel line = Option.none) := by
  refine ⟨⟨fun h => ?_, fun hk line =>
    ⟨line.length, chunksLoop_isSome hk line.length line (Nat.le_refl _)⟩⟩,
    ?_, ?_⟩
  · by_contra hk
    have hk0 : k = 0 := by omega
    subst hk0
    obtain ⟨fuel, hf⟩ := h [0]
    rw [chunksLoop_zero fuel (by simp)] at hf
    simp at hf
  · intro s hs
    exact Nat.div_eq_of_lt hs
  · intro line hline fuel
    exact chunksLoop_zero fuel hline

end KanjiKakijun
